import Mathlib

/-!
# Verification of the mastermind repository against its specification

Shallow embedding of the Go sources of `ianmcmahon/mastermind`:

* `service.go` — the game object, `Code`, `Result`, and the feedback
  primitive `CheckCode`;
* `solver/solver.go` — the deterministic minimax solver;
* the genetic solver package — the fitness function and the `Solve`
  move loop.

Conventions of the embedding:

* Go `[]byte` codes become `List Nat`; byte arithmetic that can
  overflow is modelled with explicit `% 256`.
* Go `int` results become `Int` where a subtraction can go negative
  (the `HalfCorrect` field of `Result` can, see `CheckCode`).
* Fallible Go functions returning `(T, error)` become `Except String T`.
* Go maps keyed on the canonical code string (`codeSet`) become
  `Finset (List Nat)`: for the byte-valued codes the program builds,
  `Code.String` is injective, so the map is exactly a finite set of codes.
-/

namespace Mastermind

/-- Go type `Code []byte` (`service.go`): a code is a sequence of color
values.  Byte values are embedded as `Nat`. -/
abbrev Code := List Nat

/-- Go struct `Result { Correct, HalfCorrect int }` (`service.go`).
Both fields are Go `int`s; `HalfCorrect` is produced by a subtraction
that can go negative for out-of-range color values, so both fields are
embedded as `Int`. -/
structure Result where
  correct : Int
  halfCorrect : Int
deriving DecidableEq

instance : DecidableEq (Except String Result) := fun a b =>
  match a, b with
  | .ok x, .ok y =>
    if h : x = y then .isTrue (by rw [h]) else .isFalse (by simp [h])
  | .ok _, .error _ => .isFalse (by simp)
  | .error _, .ok _ => .isFalse (by simp)
  | .error x, .error y =>
    if h : x = y then .isTrue (by rw [h]) else .isFalse (by simp [h])

/-- Go `countColors(code Code, color byte) int` (`service.go`): counts
the occurrences of `color` in `code` by a linear scan. -/
def countColors : Code → Nat → Nat
  | [], _ => 0
  | v :: rest, color => (if v = color then 1 else 0) + countColors rest color

/-- Go helper `min(x, y int) int` (`service.go`): `if y < x { return y };
return x`. -/
def goMin (x y : Nat) : Nat := if y < x then y else x

/-- The first loop of `CheckCode` (`service.go`): for each position `i`
of the (equal-length) codes, count `guess[i] == actual[i]`. -/
def countCorrect : Code → Code → Nat
  | x :: xs, y :: ys => (if x = y then 1 else 0) + countCorrect xs ys
  | _, _ => 0

/-- The second loop of `CheckCode` (`service.go`): for each color
`i` in `[0, colors)` accumulate `min(countColors(guess, i),
countColors(actual, i))`.  The recursion adds the colors in the
opposite order from the Go loop; the accumulated sum is the same. -/
def colorMinSum (guess actual : Code) : Nat → Nat
  | 0 => 0
  | n + 1 => colorMinSum guess actual n + goMin (countColors guess n) (countColors actual n)

/-- Go `CheckCode(guess, actual Code, colors byte) (Result, error)`
(`service.go` lines 204–235).  Fails when the lengths differ; otherwise
`Correct` is the positionwise match count and `HalfCorrect` is the
color-wise min-sum minus the match count (an `int` subtraction, hence
`Int` here). -/
def CheckCode (guess actual : Code) (colors : Nat) : Except String Result :=
  if guess.length ≠ actual.length then
    .error "codes are not equal length"
  else
    .ok ⟨(countCorrect guess actual : Int),
         (colorMinSum guess actual colors : Int) - (countCorrect guess actual : Int)⟩

/-- The exact-match count as the specification words it: the number of
positions `i` with `guess[i] == actual[i]`. -/
def exactSpec (guess actual : Code) : Nat :=
  ((guess.zip actual).filter (fun p => p.1 == p.2)).length

/-- The color min-sum as the specification words it: the sum over all
colors `c` in `[0, C)` of `min(occurrences of c in guess, occurrences
of c in actual)`. -/
def minSumSpec (guess actual : Code) (colors : Nat) : Nat :=
  ∑ c ∈ Finset.range colors, min (guess.count c) (actual.count c)

lemma goMin_eq_min (x y : Nat) : goMin x y = min x y := by
  unfold goMin
  split <;> omega

lemma countColors_eq_count (code : Code) (color : Nat) :
    countColors code color = code.count color := by
  induction code with
  | nil => rfl
  | cons v rest ih =>
    simp only [countColors, ih, List.count_cons]
    by_cases h : v = color
    · simp [h]
      omega
    · have h2 : ¬ (color = v) := fun hc => h hc.symm
      simp [h, h2]

lemma countCorrect_eq_exactSpec (guess actual : Code) :
    countCorrect guess actual = exactSpec guess actual := by
  induction guess generalizing actual with
  | nil => cases actual <;> rfl
  | cons x xs ih =>
    cases actual with
    | nil => rfl
    | cons y ys =>
      simp only [countCorrect, exactSpec, List.zip_cons_cons, List.filter_cons]
      by_cases h : x = y
      · simp [h, ih, exactSpec]
        omega
      · simp [h, ih, exactSpec]

lemma colorMinSum_eq_minSumSpec (guess actual : Code) (colors : Nat) :
    colorMinSum guess actual colors = minSumSpec guess actual colors := by
  induction colors with
  | zero => rfl
  | succ n ih =>
    simp only [colorMinSum, minSumSpec, Finset.sum_range_succ, ih,
      goMin_eq_min, countColors_eq_count, minSumSpec]

lemma checkCode_ok_of_length_eq (guess actual : Code) (colors : Nat)
    (h : guess.length = actual.length) :
    CheckCode guess actual colors =
      .ok ⟨(exactSpec guess actual : Int),
           (minSumSpec guess actual colors : Int) - (exactSpec guess actual : Int)⟩ := by
  unfold CheckCode
  rw [if_neg (by omega)]
  rw [countCorrect_eq_exactSpec, colorMinSum_eq_minSumSpec]

/-- **C1.** `CheckCode` on equal-length codes returns the feedback
given by the multiset-intersection decomposition: the exact count is
the number of positions where the codes agree, and the color-only
count is `∑_{c < C} min(count guess c, count actual c)` minus the
exact count; in particular against secret `5432` with 6 colors, guess
`1111` yields `(0,0)`, guess `1234` yields `(1,2)`, and guess `5432`
yields `(4,0)`. -/
theorem checkCode_feedback_formula :
    (∀ (guess actual : Code) (colors : Nat), guess.length = actual.length →
      CheckCode guess actual colors =
        .ok ⟨(exactSpec guess actual : Int),
             (minSumSpec guess actual colors : Int) - (exactSpec guess actual : Int)⟩) ∧
    CheckCode [1,1,1,1] [5,4,3,2] 6 = .ok ⟨0, 0⟩ ∧
    CheckCode [1,2,3,4] [5,4,3,2] 6 = .ok ⟨1, 2⟩ ∧
    CheckCode [5,4,3,2] [5,4,3,2] 6 = .ok ⟨4, 0⟩ := by
  refine ⟨checkCode_ok_of_length_eq, by decide, by decide, by decide⟩

/-- Witness for C1: the universally quantified part applied at a
concrete equal-length pair. -/
theorem checkCode_feedback_formula_witness :
    CheckCode [0,1] [0,2] 3 =
      .ok ⟨(exactSpec [0,1] [0,2] : Int),
           (minSumSpec [0,1] [0,2] 3 : Int) - (exactSpec [0,1] [0,2] : Int)⟩ :=
  checkCode_feedback_formula.1 [0,1] [0,2] 3 rfl

/-- **C3, counterexample.** The claim says `CheckCode` fails when a
code contains a color value outside `[0, colorCount)`.  It does not:
`CheckCode` never inspects color ranges.  Codes `[9,9]` and `[0,1]`
with only 3 colors are accepted and produce a result. -/
theorem checkCode_no_range_check_counterexample :
    CheckCode [9,9] [0,1] 3 = .ok ⟨0, 0⟩ ∧
    ∀ e, CheckCode [9,9] [0,1] 3 ≠ .error e := by
  constructor
  · decide
  · intro e h
    simp [CheckCode] at h

/-- **C3, amended.** `CheckCode` returns an error exactly when the two
codes have different lengths; color values are never validated, and
for equal-length input (whatever the color values) it returns a
feedback result and no error. -/
theorem checkCode_error_iff_length_mismatch (guess actual : Code) (colors : Nat) :
    (∃ e, CheckCode guess actual colors = .error e) ↔ guess.length ≠ actual.length := by
  unfold CheckCode
  by_cases h : guess.length = actual.length
  · simp [h]
  · simp [h]

lemma countCorrect_self (a : Code) : countCorrect a a = a.length := by
  induction a with
  | nil => rfl
  | cons x xs ih =>
    simp [countCorrect, ih]
    omega

lemma sum_count_range_of_lt (l : List Nat) (C : Nat) (h : ∀ v ∈ l, v < C) :
    ∑ c ∈ Finset.range C, l.count c = l.length := by
  have hsub : l.toFinset ⊆ Finset.range C := by
    intro x hx
    simp only [List.mem_toFinset] at hx
    exact Finset.mem_range.mpr (h x hx)
  rw [← List.sum_toFinset_count_eq_length l]
  exact (Finset.sum_subset hsub (fun x _ hx => by
    simpa [List.count_eq_zero] using fun hc => hx (List.mem_toFinset.mpr hc))).symm

lemma checkCode_self (a : Code) (C : Nat) (h : ∀ v ∈ a, v < C) :
    CheckCode a a C = .ok ⟨(a.length : Int), 0⟩ := by
  rw [checkCode_ok_of_length_eq a a C rfl]
  have hexact : exactSpec a a = a.length := by
    rw [← countCorrect_eq_exactSpec]; exact countCorrect_self a
  have hmin : minSumSpec a a C = a.length := by
    unfold minSumSpec
    simp only [min_self]
    exact sum_count_range_of_lt a C h
  rw [hexact, hmin]
  simp

/-- **C7, counterexample.** The claim quantifies over every code `a`
and every color count `C` independently.  For a code holding a color
value outside `[0, C)`, the self-match is not `(P, 0)`: with `a = [5]`
and `C = 1`, `CheckCode a a 1` returns `(1, -1)` (the color 5 is never
counted by the min-sum loop, so the `HalfCorrect` subtraction goes
negative). -/
theorem checkCode_self_match_counterexample :
    CheckCode [5] [5] 1 = .ok ⟨1, -1⟩ ∧
    (⟨1, -1⟩ : Result) ≠ ⟨(([5] : Code).length : Int), 0⟩ := by
  exact ⟨by decide, by decide⟩

/-- **C7, amended.** For every code `a` whose color values all lie in
`[0, C)`, `CheckCode a a C` returns the win signal `(P, 0)` where `P`
is the length of `a`. -/
theorem checkCode_self_match (a : Code) (C : Nat) (h : ∀ v ∈ a, v < C) :
    CheckCode a a C = .ok ⟨(a.length : Int), 0⟩ :=
  checkCode_self a C h

/-- Witness for the amended C7 at a concrete valid code. -/
theorem checkCode_self_match_witness :
    CheckCode [0,1,2] [0,1,2] 3 = .ok ⟨(([0,1,2] : Code).length : Int), 0⟩ :=
  checkCode_self_match [0,1,2] 3 (by decide)

/-- Go struct `GameSize { Positions int; Colors byte }` (`service.go`). -/
structure GameSize where
  Positions : Nat
  Colors : Nat
deriving DecidableEq

/-- Go struct `Game` (`service.go`).  The wall-clock fields
(`startTime`, `SolveTime`) are not modelled. -/
structure Game where
  TurnsTaken : Nat
  Size : GameSize
  secretCode : Code
deriving DecidableEq

/-- Solver-package constants `maxPositions = 10`, `maxColors = 10`
(`solver/solver.go` lines 37–40).  They are declared in the source but
never read. -/
def maxPositions : Nat := 10

/-- See `maxPositions`. -/
def maxColors : Nat := 10

/-- Go `NewCustomGameWithSecret(positions int, colors byte, secret
Code) *Game` (`service.go` lines 88–104).  `math.Pow(positions, 2)` is
exact in `float64` wherever the comparison with a byte-valued `colors`
can succeed, so `posSqr` is embedded as `positions * positions`; the
Go conversion `byte(posSqr)` is modelled as `% 256` (in every reachable
case `posSqr < colors < 256`, so the reduction is the identity). -/
def NewCustomGameWithSecret (positions colors : Nat) (secret : Code) : Game :=
  let posSqr := positions * positions
  let colors2 := if posSqr < colors then posSqr % 256 else colors
  { TurnsTaken := 0
    Size := ⟨positions, colors2⟩
    secretCode := secret }

/-- Go `NewCustomGame(positions int, colors byte) *Game`
(`service.go`): delegates to `NewCustomGameWithSecret` with a random
secret.  The random draw is modelled as an explicit parameter. -/
def NewCustomGame (positions colors : Nat) (randomSecret : Code) : Game :=
  NewCustomGameWithSecret positions colors randomSecret

/-- **C8, counterexample.** No size bound is enforced at game
construction: requesting 11 positions yields a game whose
`Positions()` is 11, exceeding the claimed limit of 10. -/
theorem game_size_bound_counterexample :
    (NewCustomGameWithSecret 11 5 (List.replicate 11 0)).Size.Positions = 11 ∧
    ¬ (NewCustomGameWithSecret 11 5 (List.replicate 11 0)).Size.Positions ≤ 10 := by
  exact ⟨rfl, by decide⟩

/-- **C8, amended.** The constructors do not clamp the game size to
the `maxPositions`/`maxColors` constants (which equal 10 but are never
read): every constructed game keeps exactly the requested positions
count, and the only size adjustment anywhere is the clamping of colors
to positions². -/
theorem game_size_not_bounded (positions colors : Nat) (secret : Code) :
    (NewCustomGameWithSecret positions colors secret).Size.Positions = positions ∧
    maxPositions = 10 ∧ maxColors = 10 :=
  ⟨rfl, rfl, rfl⟩

/-- **C9.** Color clamping: when the requested byte-valued color count
exceeds positions², the constructed game's color count is positions²;
otherwise it is the requested count.  `NewCustomGame` inherits the
same behavior. -/
theorem game_colors_clamped_to_positions_squared (positions colors : Nat)
    (secret randomSecret : Code) (hc : colors < 256) :
    ((NewCustomGameWithSecret positions colors secret).Size.Colors =
      if positions * positions < colors then positions * positions else colors) ∧
    ((NewCustomGame positions colors randomSecret).Size.Colors =
      if positions * positions < colors then positions * positions else colors) := by
  constructor <;>
  · show (if positions * positions < colors then positions * positions % 256 else colors) = _
    by_cases h : positions * positions < colors
    · rw [if_pos h, if_pos h, Nat.mod_eq_of_lt (by omega)]
    · rw [if_neg h, if_neg h]

/-- Witness for C9: requesting 100 colors on a 2-position game clamps
to 4. -/
theorem game_colors_clamped_witness :
    ((NewCustomGameWithSecret 2 100 [0,0]).Size.Colors =
      if 2 * 2 < 100 then 2 * 2 else 100) ∧
    ((NewCustomGame 2 100 [0,0]).Size.Colors =
      if 2 * 2 < 100 then 2 * 2 else 100) :=
  game_colors_clamped_to_positions_squared 2 100 [0,0] [0,0] (by decide)

/-- Go method `Code.String()` (`service.go` lines 22–28): renders each
color value `r` as the rune `r + '0'` and concatenates. -/
def codeString (c : Code) : String :=
  String.mk (c.map (fun r => Char.ofNat (r + 48)))

/-- The per-character loop of Go `Game.Code` (`service.go` lines 132–138):
`v := byte(c - '0')` (rune arithmetic then a byte conversion, i.e. the
value `(c - 48) mod 256`), rejected when `v >= colors` (the `v < 0`
branch of the Go test is vacuous for a byte), else stored. -/
def parseCode (colors : Nat) : List Char → Except String Code
  | [] => .ok []
  | ch :: rest =>
    let v := ((((ch.toNat : Int) - 48) % 256)).toNat
    if v ≥ colors then .error "code must use only colors below the color count"
    else
      match parseCode colors rest with
      | .error e => .error e
      | .ok out => .ok (v :: out)

/-- Go method `Game.Code(code string) (Code, error)` (`service.go`
lines 127–140): rejects a string whose byte length differs from the
game's positions count, then parses character by character.  Go's
`len(code)` counts bytes, hence `utf8ByteSize`. -/
def Game.Code (g : Game) (code : String) : Except String Mastermind.Code :=
  if code.utf8ByteSize ≠ g.Size.Positions then
    .error "code must have the positions count of characters"
  else parseCode g.Size.Colors code.data

lemma utf8ByteSize_codeString (c : Code) (hv : ∀ v ∈ c, v ≤ 9) :
    (codeString c).utf8ByteSize = c.length := by
  unfold codeString
  rw [String.utf8ByteSize_mk]
  induction c with
  | nil => rfl
  | cons x xs ih =>
    have hx : x ≤ 9 := hv x (by simp)
    have hxs := ih (fun v hvmem => hv v (by simp [hvmem]))
    simp only [List.map_cons, String.utf8Len_cons, hxs, List.length_cons]
    have : (Char.ofNat (x + 48)).utf8Size = 1 := by
      interval_cases x <;> decide
    omega

lemma parseCode_codeString (colors : Nat) (c : Code)
    (hc : colors ≤ 10) (hv : ∀ v ∈ c, v < colors) :
    parseCode colors (c.map (fun r => Char.ofNat (r + 48))) = .ok c := by
  induction c with
  | nil => rfl
  | cons x xs ih =>
    have hx : x < colors := hv x (by simp)
    have hx9 : x ≤ 9 := by omega
    have htoNat : (Char.ofNat (x + 48)).toNat = x + 48 := by
      interval_cases x <;> decide
    have hval : ((((Char.ofNat (x + 48)).toNat : Int) - 48) % 256).toNat = x := by
      rw [htoNat]
      omega
    simp only [List.map_cons, parseCode, hval]
    rw [if_neg (by omega), ih (fun v hvmem => hv v (by simp [hvmem]))]

/-- **C10.** Round-trip of the canonical code string: for a game with
at most 10 colors and a code of the right length whose values are all
in range, `g.Code (c.String())` parses back to exactly `c` with no
error. -/
theorem game_code_string_round_trip (g : Game) (c : Code)
    (hcolors : g.Size.Colors ≤ 10)
    (hlen : c.length = g.Size.Positions)
    (hv : ∀ v ∈ c, v < g.Size.Colors) :
    g.Code (codeString c) = .ok c := by
  unfold Game.Code
  have h9 : ∀ v ∈ c, v ≤ 9 := fun v hvm => by
    have := hv v hvm; omega
  rw [if_neg (by rw [utf8ByteSize_codeString c h9]; omega)]
  show parseCode g.Size.Colors (codeString c).data = .ok c
  exact parseCode_codeString g.Size.Colors c hcolors hv

/-- Witness for C10 on the default game size with the test's secret
code `5432`. -/
theorem game_code_string_round_trip_witness :
    Game.Code ⟨0, ⟨4, 6⟩, [5,4,3,2]⟩ (codeString [5,4,3,2]) = .ok [5,4,3,2] :=
  game_code_string_round_trip ⟨0, ⟨4, 6⟩, [5,4,3,2]⟩ [5,4,3,2]
    (by decide) (by decide) (by decide)

/-- The inner loop of `allPossibleCodes` (`solver/solver.go` lines
89–97 and identically `solver.go` lines 30–38): starting from
`remainder = i`, position `pos` receives `remainder / colors^(positions-pos-1)`
and the remainder drops by the corresponding multiple.  The recursion
argument is the number of positions still to fill. -/
def digitsLoop (colors : Nat) : Nat → Nat → List Nat
  | 0, _ => []
  | k + 1, remainder =>
    let power := colors ^ k
    let posVal := remainder / power
    posVal :: digitsLoop colors k (remainder - posVal * power)

/-- Go `allPossibleCodes` (`solver/solver.go` lines 84–103, and the
equivalent `solver.go` lines 26–43): enumerates indices `0 ≤ i < C^P`
and renders each as a code, most-significant position first.
`int(math.Pow(C, P))` is exact for every size the program can hold in
memory (`C^P < 2^53`), so it is embedded as `colors ^ positions`.  The
Go function returns the same codes both as a string-keyed set and as a
slice; the slice is the authoritative enumeration and the set is its
`toFinset` (the string key is injective on byte codes). -/
def allPossibleCodes (colors positions : Nat) : List Code :=
  (List.range (colors ^ positions)).map (fun i => digitsLoop colors positions i)

lemma digitsLoop_sub_eq_mod (colors k remainder : Nat) :
    remainder - remainder / colors ^ k * colors ^ k = remainder % colors ^ k := by
  exact Nat.sub_eq_of_eq_add (Nat.mod_add_div' remainder (colors ^ k)).symm

lemma digitsLoop_length (colors : Nat) : ∀ (k remainder : Nat),
    (digitsLoop colors k remainder).length = k := by
  intro k
  induction k with
  | zero => intro r; rfl
  | succ n ih => intro r; simp [digitsLoop, ih]

lemma digitsLoop_lt (colors : Nat) : ∀ (k remainder : Nat), remainder < colors ^ k →
    ∀ v ∈ digitsLoop colors k remainder, v < colors := by
  intro k
  induction k with
  | zero => intro r _ v hv; simp [digitsLoop] at hv
  | succ n ih =>
    intro r hr v hv
    have hc : 0 < colors := by
      rcases Nat.eq_zero_or_pos colors with h0 | h0
      · subst h0; simp at hr
      · exact h0
    have hpow : 0 < colors ^ n := Nat.pos_pow_of_pos n hc
    simp only [digitsLoop, List.mem_cons] at hv
    rcases hv with hv | hv
    · subst hv
      rw [Nat.div_lt_iff_lt_mul hpow]
      have h1 := pow_succ colors n
      have h2 : colors ^ n * colors = colors * colors ^ n := Nat.mul_comm _ _
      omega
    · rw [digitsLoop_sub_eq_mod] at hv
      exact ih (r % colors ^ n) (Nat.mod_lt _ hpow) v hv

lemma digitsLoop_foldl (colors : Nat) : ∀ (k remainder acc : Nat), remainder < colors ^ k →
    (digitsLoop colors k remainder).foldl (fun a d => a * colors + d) acc =
      acc * colors ^ k + remainder := by
  intro k
  induction k with
  | zero =>
    intro r acc hr
    rw [pow_zero] at hr
    have h0 : r = 0 := by omega
    subst h0
    simp [digitsLoop]
  | succ n ih =>
    intro r acc hr
    have hc : 0 < colors := by
      rcases Nat.eq_zero_or_pos colors with h0 | h0
      · subst h0; simp at hr
      · exact h0
    have hpow : 0 < colors ^ n := Nat.pos_pow_of_pos n hc
    simp only [digitsLoop, List.foldl_cons, digitsLoop_sub_eq_mod]
    rw [ih (r % colors ^ n) _ (Nat.mod_lt _ hpow)]
    have hmd := Nat.mod_add_div r (colors ^ n)
    have hexp : (acc * colors + r / colors ^ n) * colors ^ n =
        acc * colors ^ (n + 1) + r / colors ^ n * colors ^ n := by ring
    have hcomm : colors ^ n * (r / colors ^ n) =
        r / colors ^ n * colors ^ n := Nat.mul_comm _ _
    omega

lemma digitsLoop_injOn (colors k : Nat) (r1 r2 : Nat)
    (h1 : r1 < colors ^ k) (h2 : r2 < colors ^ k)
    (h : digitsLoop colors k r1 = digitsLoop colors k r2) : r1 = r2 := by
  have e1 := digitsLoop_foldl colors k r1 0 h1
  have e2 := digitsLoop_foldl colors k r2 0 h2
  rw [h] at e1
  omega

lemma digitsLoop_getD (colors : Nat) : ∀ (k remainder j : Nat), remainder < colors ^ k →
    j < k →
    (digitsLoop colors k remainder).getD j 0 =
      remainder / colors ^ (k - 1 - j) % colors := by
  intro k
  induction k with
  | zero => intro r j _ hj; omega
  | succ n ih =>
    intro r j hr hj
    have hc : 0 < colors := by
      rcases Nat.eq_zero_or_pos colors with h0 | h0
      · subst h0; simp at hr
      · exact h0
    have hpow : 0 < colors ^ n := Nat.pos_pow_of_pos n hc
    cases j with
    | zero =>
      have hdiv : r / colors ^ n < colors := by
        rw [Nat.div_lt_iff_lt_mul hpow]
        have h1 := pow_succ colors n
        have h2 : colors ^ n * colors = colors * colors ^ n := Nat.mul_comm _ _
        omega
      simp only [digitsLoop, List.getD_cons_zero, Nat.succ_sub_one, Nat.sub_zero]
      exact (Nat.mod_eq_of_lt hdiv).symm
    | succ m =>
      have hm : m < n := by omega
      simp only [digitsLoop, List.getD_cons_succ, digitsLoop_sub_eq_mod]
      rw [ih (r % colors ^ n) m (Nat.mod_lt _ hpow) hm]
      have hkm : n + 1 - 1 - (m + 1) = n - 1 - m := by omega
      rw [hkm]
      -- both sides are the digit of weight `colors ^ (n - 1 - m)`;
      -- splitting `r` at `colors ^ n` only changes it by a multiple of
      -- `colors ^ (m + 1)`, which vanishes mod `colors`.
      have hsplit : colors ^ n = colors ^ (n - 1 - m) * colors ^ (m + 1) := by
        rw [← pow_add]
        congr 1
        omega
      have hmd := Nat.mod_add_div r (colors ^ n)
      set q := r / colors ^ n with hq
      set s := r % colors ^ n with hs
      have hrq : r = s + q * (colors ^ (n - 1 - m) * colors ^ (m + 1)) := by
        rw [← hsplit]
        have hcomm : colors ^ n * q = q * colors ^ n := Nat.mul_comm _ _
        omega
      rw [hrq]
      have hdivsplit :
          (s + q * (colors ^ (n - 1 - m) * colors ^ (m + 1))) / colors ^ (n - 1 - m) =
            s / colors ^ (n - 1 - m) + q * colors ^ (m + 1) := by
        have hpos : 0 < colors ^ (n - 1 - m) := Nat.pos_pow_of_pos _ hc
        rw [mul_comm (colors ^ (n - 1 - m)) (colors ^ (m + 1)), ← mul_assoc,
          Nat.add_mul_div_right _ _ hpos]
      rw [hdivsplit]
      have hfact : q * colors ^ (m + 1) = q * colors ^ m * colors := by ring
      rw [hfact, Nat.add_mul_mod_self_right]

lemma allPossibleCodes_length (colors positions : Nat) :
    (allPossibleCodes colors positions).length = colors ^ positions := by
  simp [allPossibleCodes]

lemma allPossibleCodes_nodup (colors positions : Nat) :
    (allPossibleCodes colors positions).Nodup := by
  refine List.Nodup.map_on ?_ (List.nodup_range _)
  intro x hx y hy hxy
  exact digitsLoop_injOn colors positions x y
    (List.mem_range.mp hx) (List.mem_range.mp hy) hxy

lemma mem_allPossibleCodes_valid (colors positions : Nat) (c : Code)
    (hc : c ∈ allPossibleCodes colors positions) :
    c.length = positions ∧ ∀ v ∈ c, v < colors := by
  simp only [allPossibleCodes, List.mem_map, List.mem_range] at hc
  obtain ⟨i, hi, rfl⟩ := hc
  exact ⟨digitsLoop_length colors positions i, digitsLoop_lt colors positions i hi⟩

/-- **C4.** `allPossibleCodes` produces exactly `C^P` pairwise-distinct
codes, each of length `P` with every value in `[0, C)`, and the code at
index `i` is the base-`C` representation of `i`, most-significant
position first: its entry at position `j` is `i / C^(P-1-j) % C`. -/
theorem allPossibleCodes_spec (colors positions : Nat) :
    (allPossibleCodes colors positions).length = colors ^ positions ∧
    (allPossibleCodes colors positions).Nodup ∧
    (∀ c ∈ allPossibleCodes colors positions,
      c.length = positions ∧ ∀ v ∈ c, v < colors) ∧
    (∀ i, i < colors ^ positions → ∀ j, j < positions →
      ((allPossibleCodes colors positions).getD i []).getD j 0 =
        i / colors ^ (positions - 1 - j) % colors) := by
  refine ⟨allPossibleCodes_length colors positions,
    allPossibleCodes_nodup colors positions,
    mem_allPossibleCodes_valid colors positions, ?_⟩
  intro i hi j hj
  have hget : (allPossibleCodes colors positions).getD i [] =
      digitsLoop colors positions i := by
    unfold allPossibleCodes
    rw [List.getD_eq_getElem?_getD, List.getElem?_map, List.getElem?_range hi]
    rfl
  rw [hget]
  exact digitsLoop_getD colors positions i j hi hj

/-- Witness for C4: the mixed-radix characterization at `C = 3`,
`P = 2`, index 5, position 1 (code `[1,2]`, digit 2). -/
theorem allPossibleCodes_spec_witness :
    ((allPossibleCodes 3 2).getD 5 []).getD 1 0 = 5 / 3 ^ (2 - 1 - 1) % 3 :=
  (allPossibleCodes_spec 3 2).2.2.2 5 (by decide) 1 (by decide)

/-!
## Genetic solver (package `genetic`)

The genetic solver keeps per-move histories `s.guesses[q]` and
`s.results[q]`, `q = 1..move`; they are embedded as functions
`Nat → Code` and `Nat → Result` (the Go slices are preallocated
buffers indexed the same way).
-/

/-- The `CheckCode` call of `fitness` ignores the error value
(`resP, _ := mm.CheckCode(...)`); on an error the Go zero value
`Result{0, 0}` is what remains in `resP`.  `checkDiscardErr` is that
convention. -/
def checkDiscardErr (guess actual : Code) (colors : Nat) : Result :=
  match CheckCode guess actual colors with
  | .ok r => r
  | .error _ => ⟨0, 0⟩

/-- The accumulation loop of `fitness` (genetic solver, `fitness`
lines): for `q = 1..move`, add `|X'_q - X_q|` into the first component
and `|Y'_q - Y_q|` into the second, where `(X'_q, Y'_q)` is
`CheckCode(c, guesses[q], colors)` and `(X_q, Y_q)` is `results[q]`.
The Go sums live in exact small-integer `float64` arithmetic; they are
embedded as `Nat`. -/
def fitnessSums (colors : Nat) (guesses : Nat → Code) (results : Nat → Result)
    (c : Code) : Nat → Nat × Nat
  | 0 => (0, 0)
  | q + 1 =>
    let prev := fitnessSums colors guesses results c q
    let resQ := results (q + 1)
    let resP := checkDiscardErr c (guesses (q + 1)) colors
    (prev.1 + (resP.correct - resQ.correct).natAbs,
     prev.2 + (resP.halfCorrect - resQ.halfCorrect).natAbs)

/-- Go `fitness(c Citizen) float64` of the genetic solver: with
weights `a = b = 2`, returns `a*sumX + sumY + b*P*(move-1)`.  Every
intermediate value is a small integer, on which `float64` arithmetic
is exact, so the embedding returns `Int` (the `move - 1` factor is the
Go `int` subtraction, which can be negative only for `move = 0`, a
state the solver never queries). -/
def fitness (positions colors : Nat) (guesses : Nat → Code)
    (results : Nat → Result) (move : Nat) (c : Code) : Int :=
  let a : Int := 2
  let b : Int := 2
  let sums := fitnessSums colors guesses results c move
  a * (sums.1 : Int) + (sums.2 : Int) + b * (positions : Int) * ((move : Int) - 1)

/-- **C5.** The genetic fitness of candidate `c` at move `i ≥ 1` is
`2·Σ_{q=1..i} |X'_q - X_q| + Σ_{q=1..i} |Y'_q - Y_q| + 2·P·(i-1)`,
where `(X'_q, Y'_q)` is the feedback of `c` checked against prior
guess `g_q` and `(X_q, Y_q)` is the observed feedback of move `q`. -/
theorem genetic_fitness_formula (positions colors : Nat)
    (guesses : Nat → Code) (results : Nat → Result) (i : Nat) (c : Code)
    (hi : 1 ≤ i) :
    fitness positions colors guesses results i c =
      2 * (∑ q ∈ Finset.Icc 1 i,
            ((checkDiscardErr c (guesses q) colors).correct - (results q).correct).natAbs : Nat)
      + (∑ q ∈ Finset.Icc 1 i,
            ((checkDiscardErr c (guesses q) colors).halfCorrect - (results q).halfCorrect).natAbs : Nat)
      + 2 * (positions : Int) * ((i : Int) - 1) := by
  clear hi
  have hsums : ∀ n, fitnessSums colors guesses results c n =
      (∑ q ∈ Finset.Icc 1 n,
        ((checkDiscardErr c (guesses q) colors).correct - (results q).correct).natAbs,
       ∑ q ∈ Finset.Icc 1 n,
        ((checkDiscardErr c (guesses q) colors).halfCorrect - (results q).halfCorrect).natAbs) := by
    intro n
    induction n with
    | zero => simp [fitnessSums]
    | succ m ih =>
      rw [Finset.sum_Icc_succ_top (by omega), Finset.sum_Icc_succ_top (by omega)]
      simp [fitnessSums, ih]
  unfold fitness
  rw [hsums i]

/-- Witness for C5 at a concrete history of one move. -/
theorem genetic_fitness_formula_witness :
    fitness 4 6 (fun _ => [0,0,1,2]) (fun _ => ⟨1, 2⟩) 1 [5,4,3,2] =
      2 * (∑ q ∈ Finset.Icc 1 1,
            ((checkDiscardErr [5,4,3,2] [0,0,1,2] 6).correct - (⟨1, 2⟩ : Result).correct).natAbs : Nat)
      + (∑ q ∈ Finset.Icc 1 1,
            ((checkDiscardErr [5,4,3,2] [0,0,1,2] 6).halfCorrect - (⟨1, 2⟩ : Result).halfCorrect).natAbs : Nat)
      + 2 * ((4 : Nat) : Int) * (((1 : Nat) : Int) - 1) :=
  genetic_fitness_formula 4 6 (fun _ => [0,0,1,2]) (fun _ => ⟨1, 2⟩) 1 [5,4,3,2] (by omega)

/-- Error values of the genetic `Solve` (`Solve` returns either Go
errors built with `fmt.Errorf`): the move-limit error carries the move
count ("didn't find solution in N moves"); an oracle failure is
propagated as-is. -/
inductive GeneticError where
  | noSolutionIn (moves : Nat) : GeneticError
  | oracleError (msg : String) : GeneticError
deriving DecidableEq

/-- Go `InitialGuess()` of the genetic solver: a fixed opening by
positions count, empty for unknown sizes. -/
def InitialGuess (positions : Nat) : Code :=
  if positions = 4 then [0,0,1,2]
  else if positions = 5 then [0,0,1,2,3]
  else if positions = 6 then [0,0,1,1,2,3]
  else []

/-- Go `IsWin(r Result) bool` (`service.go`): `r.Correct ==
g.Positions() && r.HalfCorrect == 0`. -/
def isWin (positions : Nat) (r : Result) : Bool :=
  r.correct == (positions : Int) && r.halfCorrect == 0

/-- The move loop of the genetic `Solve`.  The loop guard is
`s.move >= 9`; the recursion argument `fuel` is `9 - move`, so fuel
exhaustion is exactly the Go guard firing with `s.move = move`.  The
guess submitted at move `m` is `guessOf m` (`guessOf 1` is the initial
guess; later guesses come out of the randomized population evolution,
which is modelled by the oracle `guessOf` since the claim under proof
does not depend on which code the population machinery selects).
`ScoredGuess` reduces to `CheckCode(guess, secret, colors)` (the turn
counter and logging have no effect on the result), and its error is
returned as-is by `Solve`. -/
def geneticSolveLoop (positions colors : Nat) (secret : Code)
    (guessOf : Nat → Code) : Nat → Nat → Except GeneticError Code
  | 0, move => .error (.noSolutionIn move)
  | fuel + 1, move =>
    let guess := guessOf (move + 1)
    match CheckCode guess secret colors with
    | .error e => .error (.oracleError e)
    | .ok result =>
      if isWin positions result then .ok guess
      else geneticSolveLoop positions colors secret guessOf fuel (move + 1)

/-- Go `Solve()` of the genetic solver: start at `move = 0` with the
fixed initial guess, loop up to the move cap of 9. -/
def geneticSolve (positions colors : Nat) (secret : Code)
    (next : Nat → Code) : Except GeneticError Code :=
  geneticSolveLoop positions colors secret
    (fun m => if m = 1 then InitialGuess positions else next m) 9 0

lemma geneticSolveLoop_ok_wins (positions colors : Nat) (secret : Code)
    (guessOf : Nat → Code) :
    ∀ (fuel move : Nat) (c : Code),
      geneticSolveLoop positions colors secret guessOf fuel move = .ok c →
      ∃ r, CheckCode c secret colors = .ok r ∧ isWin positions r = true := by
  intro fuel
  induction fuel with
  | zero => intro move c h; simp [geneticSolveLoop] at h
  | succ n ih =>
    intro move c h
    simp only [geneticSolveLoop] at h
    rcases hcheck : CheckCode (guessOf (move + 1)) secret colors with e | r
    · rw [hcheck] at h; simp at h
    · rw [hcheck] at h
      simp only at h
      by_cases hwin : isWin positions r = true
      · rw [if_pos hwin] at h
        cases h
        exact ⟨r, hcheck, hwin⟩
      · rw [if_neg hwin] at h
        exact ih (move + 1) c h

lemma geneticSolveLoop_exhausts (positions colors : Nat) (secret : Code)
    (guessOf : Nat → Code) :
    ∀ (fuel move : Nat), fuel + move = 9 →
      (∀ m, move < m → m ≤ 9 →
        (guessOf m).length = secret.length ∧
        isWin positions (checkDiscardErr (guessOf m) secret colors) = false) →
      geneticSolveLoop positions colors secret guessOf fuel move =
        .error (.noSolutionIn 9) := by
  intro fuel
  induction fuel with
  | zero =>
    intro move hmv _
    have : move = 9 := by omega
    subst this
    rfl
  | succ n ih =>
    intro move hmv hall
    obtain ⟨hlen, hnw⟩ := hall (move + 1) (by omega) (by omega)
    have hok : CheckCode (guessOf (move + 1)) secret colors =
        .ok (checkDiscardErr (guessOf (move + 1)) secret colors) := by
      unfold checkDiscardErr CheckCode
      rw [if_neg (by omega)]
    simp only [geneticSolveLoop, hok, hnw]
    simp only [Bool.false_eq_true, if_false]
    exact ih (move + 1) (by omega) (fun m hm hm9 => hall m (by omega) hm9)

/-- **C6.** The genetic `Solve` returns a code exactly on a win: it
returns `.ok c` only when the oracle's feedback for `c` is the win
signal (this conjunct holds for every run, whatever the population
machinery proposes); and when none of the (at most 9) submitted
guesses wins — and the oracle itself never fails — it returns the
move-limit error naming 9 moves instead of a code. -/
theorem genetic_solve_win_or_move_limit (positions colors : Nat)
    (secret : Code) (next : Nat → Code) :
    (∀ c, geneticSolve positions colors secret next = .ok c →
      ∃ r, CheckCode c secret colors = .ok r ∧ isWin positions r = true) ∧
    ((∀ m, 1 ≤ m → m ≤ 9 →
      ((if m = 1 then InitialGuess positions else next m) : Code).length = secret.length ∧
      isWin positions
        (checkDiscardErr (if m = 1 then InitialGuess positions else next m) secret colors)
          = false) →
      geneticSolve positions colors secret next = .error (.noSolutionIn 9)) := by
  constructor
  · intro c h
    exact geneticSolveLoop_ok_wins positions colors secret _ 9 0 c h
  · intro hnowin
    exact geneticSolveLoop_exhausts positions colors secret _ 9 0 rfl
      (fun m hm hm9 => hnowin m (by omega) hm9)

/-- Witness for C6, exercising both branches: with secret `0012` the
initial guess wins on move 1 and the win conjunct yields the winning
feedback; with secret `0000` and a population oracle that always
proposes `1111`, no guess ever wins and `Solve` reports the 9-move
exhaustion error. -/
theorem genetic_solve_win_or_move_limit_witness :
    (∃ r, CheckCode [0,0,1,2] [0,0,1,2] 6 = .ok r ∧ isWin 4 r = true) ∧
    geneticSolve 4 6 [0,0,0,0] (fun _ => [1,1,1,1]) =
      .error (.noSolutionIn 9) :=
  ⟨(genetic_solve_win_or_move_limit 4 6 [0,0,1,2] (fun _ => [1,1,1,1])).1
      [0,0,1,2] (by rfl),
   (genetic_solve_win_or_move_limit 4 6 [0,0,0,0] (fun _ => [1,1,1,1])).2
      (by decide)⟩

/-!
## Minimax solver (`solver/solver.go`)

The Go solver keeps the hypothesis set `S` and candidate slice `P` as
`codeSet` (a map keyed on the canonical code string) and `codeSlice`.
The string key is injective on codes, so `codeSet` is a set of codes;
it is embedded as a duplicate-free `List Code` (the enumeration order
of `allPossibleCodes`; every computation the solver performs on `S` —
filtering and counting — is insensitive to iteration order, which Go
leaves unspecified for maps anyway).
-/

/-- The `validCode` helper of the repository's tests: length equals
the positions count and every value is in `[0, colors)`. -/
def validCode (positions colors : Nat) (c : Code) : Prop :=
  c.length = positions ∧ ∀ v ∈ c, v < colors

/-- Go `possibleResults()` (`solver/solver.go` lines 105–113): all
feedback values `(black, white)` with `black + white ≤ positions`,
enumerated black-major with white descending. -/
def possibleResults (positions : Nat) : List Result :=
  (List.range (positions + 1)).flatMap (fun black =>
    ((List.range (positions - black + 1)).reverse).map
      (fun (white : Nat) => ⟨(black : Int), (white : Int)⟩))

/-- Go `selectMovesWithResult` (`solver/solver.go` lines 139–155):
keep exactly the codes of `S` whose feedback against the guess equals
the observed result.  (The Go loop panics on a `CheckCode` error; that
is unreachable for the equal-length codes the solver stores, and an
erroring code is simply not kept here.) -/
def selectMovesWithResult (colors : Nat) (S : List Code) (guess : Code)
    (result : Result) : List Code :=
  S.filter (fun s => decide (CheckCode s guess colors = Except.ok result))

/-- Go `countHits` (`solver/solver.go` lines 157–168) read off at one
feedback value: the number of codes `s` of `S` with
`CheckCode(code, s) = r`. -/
def countHits (colors : Nat) (S : List Code) (code : Code) (r : Result) : Nat :=
  (S.filter (fun s => decide (CheckCode code s colors = Except.ok r))).length

/-- Go `hitmap.maxHits` (`solver/solver.go` lines 117–128) composed
with `countHits`, and equally the max-tracking loop of
`bestGuessOfSet`: the largest bucket of the feedback partition of `S`
induced by `code`.  The Go map iterates its keys, which for the valid
codes the solver stores are exactly the initialized `possibleResults`
keys; the fold scans them in list order (the maximum does not depend
on the order). -/
def maxHits (positions colors : Nat) (S : List Code) (code : Code) : Nat :=
  (possibleResults positions).foldl
    (fun acc r => if countHits colors S code r > acc then countHits colors S code r else acc) 0

/-- The minimum of `f` over a candidate list (Go tracks it with a
`minMax := -1` sentinel while grouping; the grouped map keyed by score
is equivalent to knowing this minimum, see `bestScoreGuesses`). -/
def minOver (f : Code → Nat) : List Code → Nat
  | [] => 0
  | [p] => f p
  | p :: rest => Nat.min (f p) (minOver f rest)

/-- Go `score` (`solver/solver.go` lines 192–219) followed by
`bestScore` (lines 264–273): `score` groups every candidate of `P` by
its `maxHits` value against `S`, and `bestScore` returns the group
with the minimal score — that is, the candidates of `P` whose largest
feedback bucket is minimal. -/
def bestScoreGuesses (positions colors : Nat) (S : List Code) (P : List Code) : List Code :=
  P.filter (fun p =>
    decide (maxHits positions colors S p = minOver (maxHits positions colors S) P))

/-- Go `selectGuesses` (`solver/solver.go` lines 172–186): split
`codes` into the part inside `S` and the part outside, and return the
inside part unless it is empty. -/
def selectGuesses (S : List Code) (codes : List Code) : List Code :=
  let inS := codes.filter (fun g => decide (g ∈ S))
  let notInS := codes.filter (fun g => decide (g ∉ S))
  if inS.isEmpty then notInS else inS

/-- Go's sort order `codeSlice.Less` (`solver/solver.go` lines 15–17):
`s[i].String() < s[j].String()`.  Bytewise comparison of the UTF-8
renderings coincides with lexicographic comparison of the value lists
for the equal-length codes the solver sorts (`Code.String` maps each
value to the code point `value + '0'`, and UTF-8 preserves code-point
order). -/
def codeLess : Code → Code → Bool
  | [], [] => false
  | [], _ :: _ => true
  | _ :: _, [] => false
  | x :: xs, y :: ys =>
    if x < y then true else if y < x then false else codeLess xs ys

/-- `sort.Sort(...)` followed by taking index 0 (`solver/solver.go`
lines 259–261): the first element of the stably sorted slice, i.e. the
leftmost element that is minimal under `codeLess`. -/
def leastByString (dflt : Code) : List Code → Code
  | [] => dflt
  | p :: rest => rest.foldl (fun best q => if codeLess q best then q else best) p

/-- Go `bestGuessOfSet` (`solver/solver.go` lines 231–262): group the
candidates of `P` by their largest feedback bucket against `S`
(`maxHits`), keep the group where that maximum is minimal, sort it by
the canonical string and return its first element. -/
def bestGuessOfSet (positions colors : Nat) (S : List Code) (P : List Code) : Code :=
  leastByString []
    (P.filter (fun p =>
      decide (maxHits positions colors S p = minOver (maxHits positions colors S) P)))

/-- The opening move of `NewSolver` (`solver/solver.go` lines 55–74):
on first use of a game size the solver computes
`bestGuessOfSet(S, P)` on the full hypothesis space and memoizes it;
the two precomputed cache entries seeded in `init()` are the memoized
results of this same computation for their sizes. -/
def initialMove (positions colors : Nat) : Code :=
  bestGuessOfSet positions colors (allPossibleCodes colors positions)
    (allPossibleCodes colors positions)

/-- One iteration of the `Solve` loop (`solver/solver.go` lines
281–317) acting on the state `(S, guess)`:

* `MustScoredGuess` obtains the feedback of `guess` against the secret
  (`ScoredGuess` → `CheckCode(guess, secret)`; the panic on a
  `CheckCode` error is unreachable for valid codes and is modelled by
  the `checkDiscardErr` default);
* `S` is pruned to the codes matching that feedback;
* the next guess is either the shortcut pick when at most two
  hypotheses remain (Go keeps whichever element the map iteration
  yields last — the last element here; the choice is immaterial) or
  the minimax selection `bestGuessOfSet(S', selectGuesses(S',
  bestScore(score(S', P))))`.

The Go loop returns on a win instead of iterating; the state after a
winning round is still well defined here and the invariants below
cover every round the Go loop actually runs. -/
def mmRound (positions colors : Nat) (P : List Code) (secret : Code)
    (st : List Code × Code) : List Code × Code :=
  let result := checkDiscardErr st.2 secret colors
  let S2 := selectMovesWithResult colors st.1 st.2 result
  let guess2 :=
    if S2.length ≤ 2 then S2.getLastD st.2
    else bestGuessOfSet positions colors S2
      (selectGuesses S2 (bestScoreGuesses positions colors S2 P))
  (S2, guess2)

/-- The state sequence of the minimax `Solve` (`solver/solver.go`
lines 275–320): the hypothesis set starts as the full space produced
by `allPossibleCodes`, the first guess is the opening-book move, and
each round transforms the state by `mmRound`. -/
def mmStates (positions colors : Nat) (secret : Code) : Nat → List Code × Code
  | 0 => (allPossibleCodes colors positions, initialMove positions colors)
  | n + 1 => mmRound positions colors (allPossibleCodes colors positions) secret
      (mmStates positions colors secret n)

lemma countCorrect_comm : ∀ (g a : Code), countCorrect g a = countCorrect a g := by
  intro g
  induction g with
  | nil => intro a; cases a <;> rfl
  | cons x xs ih =>
    intro a
    cases a with
    | nil => rfl
    | cons y ys =>
      simp only [countCorrect, ih]
      by_cases h : x = y
      · simp [h]
      · have h2 : ¬ (y = x) := fun hc => h hc.symm
        simp [h, h2]

lemma colorMinSum_comm (g a : Code) (colors : Nat) :
    colorMinSum g a colors = colorMinSum a g colors := by
  induction colors with
  | zero => rfl
  | succ n ih =>
    simp only [colorMinSum, ih, goMin_eq_min, Nat.min_comm]

lemma checkCode_comm (g a : Code) (colors : Nat) :
    CheckCode g a colors = CheckCode a g colors := by
  unfold CheckCode
  by_cases h : g.length = a.length
  · rw [if_neg (by omega), if_neg (by omega),
      countCorrect_comm, colorMinSum_comm]
  · rw [if_pos (by omega), if_pos (by omega)]

lemma countCorrect_le_length : ∀ (g a : Code), countCorrect g a ≤ g.length := by
  intro g
  induction g with
  | nil => intro a; cases a <;> simp [countCorrect]
  | cons x xs ih =>
    intro a
    cases a with
    | nil => simp [countCorrect]
    | cons y ys =>
      have := ih ys
      simp only [countCorrect, List.length_cons]
      by_cases h : x = y <;> simp [h] <;> omega

lemma eq_of_countCorrect_eq_length : ∀ (g a : Code), g.length = a.length →
    countCorrect g a = g.length → g = a := by
  intro g
  induction g with
  | nil =>
    intro a hlen _
    cases a with
    | nil => rfl
    | cons y ys => simp at hlen
  | cons x xs ih =>
    intro a hlen hcc
    cases a with
    | nil => simp at hlen
    | cons y ys =>
      have hle := countCorrect_le_length xs ys
      simp only [countCorrect, List.length_cons] at hcc
      by_cases h : x = y
      · rw [if_pos h] at hcc
        have := ih ys (by simpa using hlen) (by omega)
        rw [h, this]
      · rw [if_neg h] at hcc
        omega

lemma countCorrect_le_minSumSpec (g : Code) : ∀ (a : Code) (colors : Nat),
    (∀ v ∈ g, v < colors) → countCorrect g a ≤ minSumSpec g a colors := by
  induction g with
  | nil => intro a colors _; cases a <;> simp [countCorrect]
  | cons x xs ih =>
    intro a colors hv
    cases a with
    | nil => simp [countCorrect]
    | cons y ys =>
      have hx : x < colors := hv x (by simp)
      have hxs := ih ys colors (fun v hm => hv v (by simp [hm]))
      -- termwise: each color bucket of the cons pair dominates the
      -- bucket of the tails plus the indicator of a head match
      have hterm : ∀ c ∈ Finset.range colors,
          min (xs.count c) (ys.count c) + (if c = x ∧ x = y then 1 else 0) ≤
            min ((x :: xs).count c) ((y :: ys).count c) := by
        intro c _
        have hcx := List.count_cons c x xs
        have hcy := List.count_cons c y ys
        by_cases h1 : c = x <;> by_cases h2 : c = y <;>
          by_cases h3 : x = y <;>
          simp [hcx, hcy, h1, h2, h3] at * <;> omega
      have hsum : ∑ c ∈ Finset.range colors,
          (min (xs.count c) (ys.count c) + (if c = x ∧ x = y then 1 else 0)) ≤
            minSumSpec (x :: xs) (y :: ys) colors :=
        Finset.sum_le_sum hterm
      rw [Finset.sum_add_distrib] at hsum
      have hind : ∑ c ∈ Finset.range colors, (if c = x ∧ x = y then 1 else 0) =
          if x = y then 1 else 0 := by
        by_cases h3 : x = y
        · subst h3
          simp only [eq_self_iff_true, and_true, if_true]
          rw [Finset.sum_ite_eq' (Finset.range colors) x (fun _ => 1)]
          simp [Finset.mem_range.mpr hx]
        · simp [h3]
      rw [hind] at hsum
      simp only [countCorrect]
      unfold minSumSpec at hxs
      by_cases h3 : x = y <;> simp [h3] at hsum ⊢ <;> omega

lemma minSumSpec_le_length (g a : Code) (colors : Nat) :
    minSumSpec g a colors ≤ g.length := by
  unfold minSumSpec
  calc ∑ c ∈ Finset.range colors, min (g.count c) (a.count c)
      ≤ ∑ c ∈ Finset.range colors, g.count c :=
        Finset.sum_le_sum (fun c _ => Nat.min_le_left _ _)
  _ ≤ ∑ c ∈ Finset.range colors ∪ g.toFinset, g.count c :=
        Finset.sum_le_sum_of_subset Finset.subset_union_left
  _ = ∑ c ∈ g.toFinset, g.count c := by
        refine (Finset.sum_subset Finset.subset_union_right ?_).symm
        intro x _ hx
        simpa [List.count_eq_zero] using fun hc => hx (List.mem_toFinset.mpr hc)
  _ = g.length := List.sum_toFinset_count_eq_length g

/-- The winning feedback value for a game of `positions` positions. -/
def winResult (positions : Nat) : Result := ⟨(positions : Int), 0⟩

lemma checkCode_eq_win_iff (positions colors : Nat) (a s : Code)
    (ha : validCode positions colors a) (hs : validCode positions colors s) :
    CheckCode a s colors = .ok (winResult positions) ↔ a = s := by
  have hla := ha.1
  have hls := hs.1
  constructor
  · intro h
    unfold CheckCode at h
    rw [if_neg (show ¬ a.length ≠ s.length by omega)] at h
    simp only [Except.ok.injEq] at h
    have h2 := congrArg Result.correct h
    have h3 : (countCorrect a s : Int) = (positions : Int) := by
      simpa [winResult] using h2
    have hcc : countCorrect a s = positions := by exact_mod_cast h3
    exact eq_of_countCorrect_eq_length a s (by omega) (by rw [hcc, hla])
  · intro h
    subst h
    rw [checkCode_self a colors ha.2, hla]
    rfl

lemma mem_possibleResults (positions b w : Nat) (h : b + w ≤ positions) :
    (⟨(b : Int), (w : Int)⟩ : Result) ∈ possibleResults positions := by
  unfold possibleResults
  rw [List.mem_flatMap]
  refine ⟨b, List.mem_range.mpr (by omega), ?_⟩
  rw [List.mem_map]
  refine ⟨w, ?_, rfl⟩
  rw [List.mem_reverse]
  exact List.mem_range.mpr (by omega)

lemma checkDiscardErr_valid (positions colors : Nat) (g a : Code)
    (hg : validCode positions colors g) (ha : validCode positions colors a) :
    CheckCode g a colors = .ok (checkDiscardErr g a colors) ∧
    checkDiscardErr g a colors ∈ possibleResults positions := by
  have hlen : g.length = a.length := by
    rw [hg.1, ha.1]
  have hok := checkCode_ok_of_length_eq g a colors hlen
  have hx := countCorrect_le_minSumSpec g a colors hg.2
  rw [countCorrect_eq_exactSpec] at hx
  have hm : minSumSpec g a colors ≤ positions := by
    have h1 := minSumSpec_le_length g a colors
    have h2 := hg.1
    omega
  constructor
  · unfold checkDiscardErr
    rw [hok]
  · unfold checkDiscardErr
    rw [hok]
    have hcast : ((minSumSpec g a colors : Int) - (exactSpec g a : Int)) =
        ((minSumSpec g a colors - exactSpec g a : Nat) : Int) := by
      omega
    rw [hcast]
    exact mem_possibleResults positions (exactSpec g a)
      (minSumSpec g a colors - exactSpec g a) (by omega)

lemma foldl_max_ge_acc (g : Result → Nat) :
    ∀ (lst : List Result) (acc : Nat),
      acc ≤ lst.foldl (fun acc r => if g r > acc then g r else acc) acc := by
  intro lst
  induction lst with
  | nil => intro acc; simp
  | cons r rest ih =>
    intro acc
    simp only [List.foldl_cons]
    by_cases h : g r > acc
    · rw [if_pos h]
      have := ih (g r)
      omega
    · rw [if_neg h]
      exact ih acc

lemma foldl_max_ge_mem (g : Result → Nat) :
    ∀ (lst : List Result) (acc : Nat) (r : Result), r ∈ lst →
      g r ≤ lst.foldl (fun acc r => if g r > acc then g r else acc) acc := by
  intro lst
  induction lst with
  | nil => intro acc r hr; simp at hr
  | cons p rest ih =>
    intro acc r hr
    simp only [List.mem_cons] at hr
    simp only [List.foldl_cons]
    rcases hr with hr | hr
    · subst hr
      by_cases h : g r > acc
      · rw [if_pos h]
        have := foldl_max_ge_acc g rest (g r)
        omega
      · rw [if_neg h]
        have := foldl_max_ge_acc g rest acc
        omega
    · by_cases h : g p > acc
      · rw [if_pos h]; exact ih (g p) r hr
      · rw [if_neg h]; exact ih acc r hr

lemma foldl_max_le (g : Result → Nat) (B : Nat) :
    ∀ (lst : List Result) (acc : Nat), acc ≤ B → (∀ r ∈ lst, g r ≤ B) →
      lst.foldl (fun acc r => if g r > acc then g r else acc) acc ≤ B := by
  intro lst
  induction lst with
  | nil => intro acc hacc _; simpa using hacc
  | cons p rest ih =>
    intro acc hacc hall
    simp only [List.foldl_cons]
    by_cases h : g p > acc
    · rw [if_pos h]
      exact ih (g p) (hall p (by simp)) (fun r hr => hall r (by simp [hr]))
    · rw [if_neg h]
      exact ih acc hacc (fun r hr => hall r (by simp [hr]))

lemma length_filter_beq_le_one {S : List Code} (hnd : S.Nodup) (a : Code) :
    (S.filter (fun s => s == a)).length ≤ 1 := by
  induction S with
  | nil => simp
  | cons x xs ih =>
    rw [List.nodup_cons] at hnd
    simp only [List.filter_cons]
    by_cases h : (x == a) = true
    · have hxa : x = a := by simpa using h
      subst hxa
      have hnil : xs.filter (fun s => s == x) = [] := by
        rw [List.filter_eq_nil_iff]
        intro b hb
        simp only [beq_iff_eq]
        intro hba
        exact hnd.1 (hba ▸ hb)
      simp [h, hnil]
    · simp only [h, if_false]
      exact ih hnd.2

lemma countHits_le_of_mem (positions colors : Nat) (S : List Code) (a : Code)
    (hnd : S.Nodup) (hSv : ∀ s ∈ S, validCode positions colors s)
    (ha : a ∈ S) (hcard : 2 ≤ S.length) (r : Result) :
    countHits colors S a r ≤ S.length - 1 := by
  have hav := hSv a ha
  by_cases hr : r = winResult positions
  · -- the winning bucket holds exactly the code `a` itself
    subst hr
    unfold countHits
    have hpred : ∀ s ∈ S,
        (decide (CheckCode a s colors = Except.ok (winResult positions))) =
          (s == a) := by
      intro s hs
      have := checkCode_eq_win_iff positions colors a s hav (hSv s hs)
      by_cases he : s = a
      · subst he
        simp [this.mpr rfl]
      · have : ¬ (CheckCode a s colors = Except.ok (winResult positions)) :=
          fun hc => he (this.mp hc).symm
        simp [he, this]
    rw [List.filter_congr hpred]
    have := length_filter_beq_le_one hnd a
    omega
  · -- a non-winning bucket misses `a`, so it has at most |S| - 1 codes
    unfold countHits
    have hna : ¬ (CheckCode a a colors = Except.ok r) := by
      rw [(checkCode_eq_win_iff positions colors a a hav hav).mpr rfl]
      simpa using fun hc => hr hc.symm
    have hlt : (S.filter
        (fun s => decide (CheckCode a s colors = Except.ok r))).length < S.length := by
      apply List.length_filter_lt_length_iff_exists.mpr
      exact ⟨a, ha, by simpa using hna⟩
    omega

lemma maxHits_le_of_mem (positions colors : Nat) (S : List Code) (a : Code)
    (hnd : S.Nodup) (hSv : ∀ s ∈ S, validCode positions colors s)
    (ha : a ∈ S) (hcard : 2 ≤ S.length) :
    maxHits positions colors S a ≤ S.length - 1 := by
  unfold maxHits
  exact foldl_max_le _ _ _ 0 (by omega)
    (fun r _ => countHits_le_of_mem positions colors S a hnd hSv ha hcard r)

lemma minOver_le (f : Code → Nat) :
    ∀ (l : List Code), ∀ q ∈ l, minOver f l ≤ f q := by
  intro l
  induction l with
  | nil => intro q hq; simp at hq
  | cons p rest ih =>
    intro q hq
    cases rest with
    | nil =>
      simp only [List.mem_singleton] at hq
      subst hq
      simp [minOver]
    | cons r rs =>
      simp only [minOver]
      simp only [List.mem_cons] at hq
      rcases hq with hq | hq
      · subst hq; exact Nat.min_le_left _ _
      · exact le_trans (Nat.min_le_right _ _) (ih q (by simpa using hq))

lemma minOver_achieved (f : Code → Nat) :
    ∀ (l : List Code), l ≠ [] → ∃ p ∈ l, f p = minOver f l := by
  intro l
  induction l with
  | nil => intro h; exact absurd rfl h
  | cons p rest ih =>
    intro _
    cases rest with
    | nil => exact ⟨p, by simp, rfl⟩
    | cons r rs =>
      obtain ⟨q, hq, hfq⟩ := ih (by simp)
      simp only [minOver]
      by_cases h : f p ≤ minOver f (r :: rs)
      · refine ⟨p, by simp, (Nat.min_eq_left h).symm⟩
      · refine ⟨q, by simp [List.mem_cons] at hq ⊢; tauto, ?_⟩
        simp only [Nat.min_def]
        rw [if_neg h]
        exact hfq

lemma bestScoreGuesses_mem_iff (positions colors : Nat) (S P : List Code) (p : Code) :
    p ∈ bestScoreGuesses positions colors S P ↔
      p ∈ P ∧ maxHits positions colors S p = minOver (maxHits positions colors S) P := by
  unfold bestScoreGuesses
  rw [List.mem_filter]
  simp

lemma bestScoreGuesses_ne_nil (positions colors : Nat) (S P : List Code)
    (hP : P ≠ []) : bestScoreGuesses positions colors S P ≠ [] := by
  obtain ⟨p, hp, hfp⟩ := minOver_achieved (maxHits positions colors S) P hP
  exact List.ne_nil_of_mem
    ((bestScoreGuesses_mem_iff positions colors S P p).mpr ⟨hp, hfp⟩)

lemma selectGuesses_subset (S codes : List Code) :
    selectGuesses S codes ⊆ codes := by
  unfold selectGuesses
  by_cases h : (codes.filter (fun g => decide (g ∈ S))).isEmpty
  · simp only [h, if_true]
    exact fun x hx => (List.mem_filter.mp hx).1
  · simp only [h, if_false]
    exact fun x hx => (List.mem_filter.mp hx).1

lemma selectGuesses_ne_nil (S codes : List Code) (h : codes ≠ []) :
    selectGuesses S codes ≠ [] := by
  unfold selectGuesses
  cases codes with
  | nil => exact absurd rfl h
  | cons c cs =>
    by_cases hin : ((c :: cs).filter (fun g => decide (g ∈ S))).isEmpty
    · simp only [hin, if_true]
      have hcnot : c ∉ S := by
        intro hc
        have : c ∈ (c :: cs).filter (fun g => decide (g ∈ S)) :=
          List.mem_filter.mpr ⟨by simp, by simpa using hc⟩
        rw [List.isEmpty_iff] at hin
        simp [hin] at this
      exact List.ne_nil_of_mem
        (List.mem_filter.mpr ⟨List.mem_cons_self c cs, by simpa using hcnot⟩)
    · simp only [hin, if_false]
      exact fun hc => hin (List.isEmpty_iff.mpr hc)

lemma foldl_pick_mem :
    ∀ (rest : List Code) (b : Code),
      rest.foldl (fun best q => if codeLess q best then q else best) b = b ∨
      rest.foldl (fun best q => if codeLess q best then q else best) b ∈ rest := by
  intro rest
  induction rest with
  | nil => intro b; left; rfl
  | cons q qs ih =>
    intro b
    simp only [List.foldl_cons]
    by_cases h : codeLess q b
    · rw [if_pos h]
      rcases ih q with h2 | h2
      · right; rw [h2]; simp
      · right; simp [h2]
    · rw [if_neg h]
      rcases ih b with h2 | h2
      · left; exact h2
      · right; simp [h2]

lemma leastByString_mem (l : List Code) (d : Code) (h : l ≠ []) :
    leastByString d l ∈ l := by
  cases l with
  | nil => exact absurd rfl h
  | cons p rest =>
    show rest.foldl (fun best q => if codeLess q best then q else best) p ∈ p :: rest
    rcases foldl_pick_mem rest p with h2 | h2
    · rw [h2]; simp
    · simp [h2]

lemma bestGuessOfSet_mem_min (positions colors : Nat) (S P : List Code)
    (hP : P ≠ []) :
    bestGuessOfSet positions colors S P ∈ P ∧
    ∀ q ∈ P, maxHits positions colors S (bestGuessOfSet positions colors S P) ≤
      maxHits positions colors S q := by
  unfold bestGuessOfSet
  set f := maxHits positions colors S with hf
  set winners := P.filter (fun p => decide (f p = minOver f P)) with hw
  have hwne : winners ≠ [] := by
    obtain ⟨p, hp, hfp⟩ := minOver_achieved f P hP
    exact List.ne_nil_of_mem (List.mem_filter.mpr ⟨hp, by simpa using hfp⟩)
  have hmem := leastByString_mem winners [] hwne
  have hspec := List.mem_filter.mp hmem
  refine ⟨hspec.1, ?_⟩
  intro q hq
  have : f (leastByString [] winners) = minOver f P := by simpa using hspec.2
  rw [this]
  exact minOver_le f P q hq

lemma selectMovesWithResult_length_eq_countHits (colors : Nat) (S : List Code)
    (guess : Code) (r : Result) :
    (selectMovesWithResult colors S guess r).length = countHits colors S guess r := by
  unfold selectMovesWithResult countHits
  congr 1
  apply List.filter_congr
  intro s _
  rw [checkCode_comm s guess colors]

lemma mmStates_subset_full (positions colors : Nat) (secret : Code) :
    ∀ n, (mmStates positions colors secret n).1 ⊆ allPossibleCodes colors positions := by
  intro n
  induction n with
  | zero => exact fun x hx => hx
  | succ m ih =>
    intro x hx
    exact ih ((List.mem_filter.mp hx).1)

lemma mmStates_nodup (positions colors : Nat) (secret : Code) :
    ∀ n, (mmStates positions colors secret n).1.Nodup := by
  intro n
  induction n with
  | zero => exact allPossibleCodes_nodup colors positions
  | succ m ih => exact List.Nodup.filter _ ih

lemma mmStates_guess_good (positions colors : Nat) (secret : Code) :
    ∀ n, 2 < (mmStates positions colors secret n).1.length →
      (mmStates positions colors secret n).2 ∈ allPossibleCodes colors positions ∧
      ∀ a ∈ (mmStates positions colors secret n).1,
        maxHits positions colors (mmStates positions colors secret n).1
            (mmStates positions colors secret n).2 ≤
          maxHits positions colors (mmStates positions colors secret n).1 a := by
  intro n
  cases n with
  | zero =>
    intro h
    have hP : allPossibleCodes colors positions ≠ [] := by
      intro hc
      rw [show (mmStates positions colors secret 0).1 = allPossibleCodes colors positions
        from rfl, hc] at h
      simp at h
    obtain ⟨hmem, hmin⟩ := bestGuessOfSet_mem_min positions colors
      (allPossibleCodes colors positions) (allPossibleCodes colors positions) hP
    exact ⟨hmem, fun a ha => hmin a ha⟩
  | succ m =>
    intro h
    set st := mmStates positions colors secret m with hst
    set result := checkDiscardErr st.2 secret colors with hresult
    set S2 := selectMovesWithResult colors st.1 st.2 result with hS2
    have hSeq : (mmStates positions colors secret (m + 1)).1 = S2 := rfl
    have h2 : 2 < S2.length := by rw [← hSeq]; exact h
    have hguess : (mmStates positions colors secret (m + 1)).2 =
        bestGuessOfSet positions colors S2
          (selectGuesses S2 (bestScoreGuesses positions colors S2
            (allPossibleCodes colors positions))) := by
      show (if S2.length ≤ 2 then S2.getLastD st.2
        else bestGuessOfSet positions colors S2
          (selectGuesses S2 (bestScoreGuesses positions colors S2
            (allPossibleCodes colors positions)))) = _
      rw [if_neg (by omega)]
    have hS2sub : S2 ⊆ allPossibleCodes colors positions := by
      intro x hx
      exact mmStates_subset_full positions colors secret m ((List.mem_filter.mp hx).1)
    have hPne : allPossibleCodes colors positions ≠ [] := by
      obtain ⟨a, ha⟩ := List.exists_mem_of_length_pos (show 0 < S2.length by omega)
      exact List.ne_nil_of_mem (hS2sub ha)
    have hbg := bestScoreGuesses_ne_nil positions colors S2
      (allPossibleCodes colors positions) hPne
    have hpg := selectGuesses_ne_nil S2 _ hbg
    obtain ⟨hmempg, _⟩ := bestGuessOfSet_mem_min positions colors S2
      (selectGuesses S2 (bestScoreGuesses positions colors S2
        (allPossibleCodes colors positions))) hpg
    have hmembg := selectGuesses_subset S2 _ hmempg
    have hspec := (bestScoreGuesses_mem_iff positions colors S2
      (allPossibleCodes colors positions) _).mp hmembg
    rw [hSeq, hguess]
    refine ⟨hspec.1, ?_⟩
    intro a ha
    rw [hspec.2]
    exact minOver_le _ _ a (hS2sub ha)

lemma mmStates_round_strict (positions colors : Nat) (secret : Code)
    (hsec : secret ∈ allPossibleCodes colors positions) :
    ∀ n, 2 < (mmStates positions colors secret n).1.length →
      (mmStates positions colors secret (n + 1)).1.length <
        (mmStates positions colors secret n).1.length := by
  intro n h
  obtain ⟨hgmem, hgmin⟩ := mmStates_guess_good positions colors secret n h
  set st := mmStates positions colors secret n with hst
  have hgv := mem_allPossibleCodes_valid colors positions st.2 hgmem
  have hsv := mem_allPossibleCodes_valid colors positions secret hsec
  have hSv : ∀ s ∈ st.1, validCode positions colors s := fun s hs =>
    mem_allPossibleCodes_valid colors positions s
      (mmStates_subset_full positions colors secret n hs)
  have hnd := mmStates_nodup positions colors secret n
  obtain ⟨a, ha⟩ := List.exists_mem_of_length_pos (show 0 < st.1.length by omega)
  have hfa := maxHits_le_of_mem positions colors st.1 a hnd hSv ha (by omega)
  have hfg := hgmin a ha
  obtain ⟨-, hresmem⟩ := checkDiscardErr_valid positions colors st.2 secret
    ⟨hgv.1, hgv.2⟩ ⟨hsv.1, hsv.2⟩
  have hSeq : (mmStates positions colors secret (n + 1)).1 =
      selectMovesWithResult colors st.1 st.2 (checkDiscardErr st.2 secret colors) := rfl
  rw [hSeq, selectMovesWithResult_length_eq_countHits]
  have hch : countHits colors st.1 st.2 (checkDiscardErr st.2 secret colors) ≤
      maxHits positions colors st.1 st.2 := by
    unfold maxHits
    exact foldl_max_ge_mem _ (possibleResults positions) 0 _ hresmem
  omega

/-- **C2.** Invariants of the minimax `Solve` loop: the hypothesis set
starts as the full `C^P` space produced by `allPossibleCodes`; each
round's pruned set is a subset of the previous one (size
non-increasing, never growing); and whenever more than 2 hypotheses
remain before a round, the round strictly decreases the size of the
hypothesis set. -/
theorem minimax_hypothesis_set_invariants (positions colors : Nat) (secret : Code)
    (hsec : secret ∈ allPossibleCodes colors positions) :
    (mmStates positions colors secret 0).1 = allPossibleCodes colors positions ∧
    (mmStates positions colors secret 0).1.length = colors ^ positions ∧
    (∀ n, (mmStates positions colors secret (n + 1)).1 ⊆
      (mmStates positions colors secret n).1) ∧
    (∀ n, (mmStates positions colors secret (n + 1)).1.length ≤
      (mmStates positions colors secret n).1.length) ∧
    (∀ n, 2 < (mmStates positions colors secret n).1.length →
      (mmStates positions colors secret (n + 1)).1.length <
        (mmStates positions colors secret n).1.length) := by
  refine ⟨rfl, allPossibleCodes_length colors positions, ?_, ?_,
    mmStates_round_strict positions colors secret hsec⟩
  · intro n x hx
    exact (List.mem_filter.mp hx).1
  · intro n
    exact List.length_filter_le _ _

/-- Witness for C2: the 1-position, 3-color game with secret `[1]`
starts with 3 > 2 hypotheses and the first round strictly shrinks the
set. -/
theorem minimax_hypothesis_set_invariants_witness :
    (mmStates 1 3 [1] 1).1.length < (mmStates 1 3 [1] 0).1.length :=
  (minimax_hypothesis_set_invariants 1 3 [1] (by decide)).2.2.2.2 0 (by decide)

end Mastermind
